import Mathlib

/-!
Verification of the SeedObjects seed-generation pipeline
(src/seedobjects.py of the CellProfiler-plugins repository).

The pipeline (generate_seeds, lines 156-184) is: pad the label array by one
layer of zeros, take the exact Euclidean distance transform, crop the layer
back, smooth with a Gaussian, extract local maxima subject to separation /
relative-intensity / border / count constraints, and dilate the resulting
seed mask with a structuring element.  The run method (lines 138-153)
validates that the structuring element dimensionality equals the label array
dimensionality before the pipeline executes.

Arrays are embedded as a shape (a list of extents, one per dimension)
together with a total value function on integer coordinate vectors; indices
outside the shape are handled explicitly by each operation, exactly where the
source code (or the library routine it calls) does.  Real-valued pixel data
is embedded in exact rational arithmetic.  The exact Euclidean distances
produced by scipy.ndimage.distance_transform_edt are square roots of natural
numbers; we carry the exact squared distance instead (a strictly monotone
reparametrisation that keeps every comparison and every zero/non-zero
distinction), so that the whole pipeline stays executable.
-/

namespace SeedObjects

/- Mathlib marks the arithmetic of ℚ irreducible; restore the default
transparency inside this file so that concrete pipeline runs evaluate by
decide. -/
attribute [local semireducible] Rat.mul Rat.add Rat.sub Rat.inv

/-- A coordinate vector: one integer per dimension. -/
abbrev Coord := List Int

/-- An N-dimensional array: a shape (extent of each dimension) and a value
function on coordinates.  Pixels outside the shape are given by the value
function as well; every operation below states explicitly how it treats
them. -/
structure NDImage (α : Type) where
  shape : List Nat
  val : Coord → α

/-- A coordinate is inside an array of the given shape: same dimensionality
and every component within the extent of its dimension. -/
def inBounds (shape : List Nat) (p : Coord) : Bool :=
  p.length == shape.length &&
    (List.zip p shape).all (fun xn => 0 ≤ xn.1 && xn.1 < (xn.2 : Int))

/-- All coordinates of an array of the given shape, in row-major order
(first dimension outermost, each dimension ascending) — the iteration order
of the underlying numpy arrays. -/
def allIndices : List Nat → List Coord
  | [] => [[]]
  | n :: rest =>
      (List.range n).flatMap (fun i => (allIndices rest).map (fun q => ((i : Int)) :: q))

/-- Squared Euclidean distance between two coordinates. -/
def sqDist (p q : Coord) : Nat :=
  (List.zipWith (fun a b => ((a - b).natAbs) ^ 2) p q).sum

/-- Chebyshev distance between two coordinates. -/
def chebDist (p q : Coord) : Nat :=
  (List.zipWith (fun a b => (a - b).natAbs) p q).foldr max 0

/-- Minimum of a list of naturals (0 for the empty list; the pipeline only
applies it to nonempty lists because the pad step guarantees background
pixels exist). -/
def minNatList : List Nat → Nat
  | [] => 0
  | [x] => x
  | x :: y :: rest => min x (minNatList (y :: rest))

/-- Componentwise sum of two coordinates. -/
def addC (p q : Coord) : Coord := List.zipWith (· + ·) p q

/-- Componentwise difference of two coordinates. -/
def subC (p q : Coord) : Coord := List.zipWith (· - ·) p q

/-- Modelled from the spec: skimage.util.pad(labels, 1, mode='constant',
constant_values=0) (called at src/seedobjects.py line 162, library code not
in this repository) — add exactly one layer of zero background on every side
in every dimension. -/
def padOne (img : NDImage Int) : NDImage Int :=
  { shape := img.shape.map (· + 2)
    val := fun p =>
      if inBounds img.shape (p.map (· - 1)) then img.val (p.map (· - 1)) else 0 }

/-- The background (zero-valued) coordinates of an integer array. -/
def zeroCells (img : NDImage Int) : List Coord :=
  (allIndices img.shape).filter (fun q => img.val q == 0)

/-- Modelled from the spec: scipy.ndimage.distance_transform_edt (called at
src/seedobjects.py line 165, library code not in this repository) — the
exact Euclidean distance transform: at each pixel, the distance to the
nearest zero pixel (zero at zero pixels themselves), nonzero pixels being
foreground.  We carry the exact squared distance as a rational, a strictly
monotone encoding of the exact (generally irrational) distance. -/
def sqEDT (img : NDImage Int) : NDImage ℚ :=
  { shape := img.shape
    val := fun p => ((minNatList ((zeroCells img).map (sqDist p)) : ℕ) : ℚ) }

/-- Modelled from the spec: skimage.util.crop(seeds, 1) (called at
src/seedobjects.py line 168, library code not in this repository) — remove
one layer from every side in every dimension, undoing the pad. -/
def cropOne (img : NDImage ℚ) : NDImage ℚ :=
  { shape := img.shape.map (· - 2)
    val := fun p => img.val (p.map (· + 1)) }

/-- Clamp an index into the valid range of a dimension of extent n
(nearest-edge boundary handling of the smoothing filter). -/
def clampIdx (n : Nat) (x : Int) : Int := max 0 (min x ((n : Int) - 1))

/-- Ceiling of a rational, written out with Euclidean integer division so
that it evaluates inside the kernel. -/
def ratCeil (q : ℚ) : Int := -((-q.num) / (q.den : Int))

/-- Truncation radius of the Gaussian kernel for a given sigma (the
library's truncate=4.0 default: the kernel extends 4 standard deviations;
sigma = 0 gives radius 0, the identity kernel). -/
def gaussRadius (sigma : ℚ) : Nat := (ratCeil ((4 : ℚ) * sigma)).toNat

/-- Weight j (0 ≤ j ≤ 2r) of the discrete Gaussian kernel of radius r: the
normalized binomial kernel, the standard exact-arithmetic discretization of
the Gaussian. -/
def binWeight (r : Nat) (j : Nat) : ℚ := ((Nat.choose (2 * r) j : ℕ) : ℚ) / ((4 : ℚ)) ^ r

/-- One-dimensional smoothing pass along one axis: at each pixel, the
kernel-weighted sum of the values along that axis, indices clamped to the
array (nearest-edge boundary handling). -/
def conv1D (sigma : ℚ) (axis : Nat) (img : NDImage ℚ) : NDImage ℚ :=
  { shape := img.shape
    val := fun p =>
      ((List.range (2 * gaussRadius sigma + 1)).map (fun j =>
        binWeight (gaussRadius sigma) j *
          img.val (p.set axis
            (clampIdx (img.shape.getD axis 0)
              ((p.getD axis 0) + (j : Int) - (gaussRadius sigma : Int)))))).sum }

/-- Modelled from the spec: skimage.filters.gaussian(seeds, sigma) (called
at src/seedobjects.py line 171, library code not in this repository) —
isotropic separable Gaussian smoothing: the one-dimensional pass applied
along every axis in turn; sigma = 0 is the identity. -/
def gaussianSmooth (sigma : ℚ) (img : NDImage ℚ) : NDImage ℚ :=
  (List.range img.shape.length).foldl (fun im ax => conv1D sigma ax im) img

/-- Maximum intensity over the whole field (0 for an empty field). -/
def fieldMax (img : NDImage ℚ) : ℚ :=
  match (allIndices img.shape).map img.val with
  | [] => 0
  | x :: xs => xs.foldl max x

/-- The offsets of the immediate (Chebyshev radius 1) neighborhood in
dimension d, the zero offset included. -/
def nbrOffsets (d : Nat) : List Coord :=
  (allIndices (List.replicate d 3)).map (fun q => q.map (· - 1))

/-- A pixel is a strict local maximum: strictly greater than every distinct
in-bounds pixel of its immediate neighborhood. -/
def isStrictLocalMax (img : NDImage ℚ) (p : Coord) : Bool :=
  (nbrOffsets img.shape.length).all (fun off =>
    off.all (fun z => z == 0) || !(inBounds img.shape (addC p off)) ||
      decide (img.val (addC p off) < img.val p))

/-- A pixel is at least border pixels away from every array edge in every
dimension (candidates closer than that are discarded). -/
def borderOK (shape : List Nat) (border : Nat) (p : Coord) : Bool :=
  (List.zip p shape).all (fun xn =>
    (border : Int) ≤ xn.1 && xn.1 < (xn.2 : Int) - (border : Int))

/-- A pixel qualifies as a candidate peak: a strict local maximum whose
intensity is at least threshold_rel times the maximum intensity of the
field, outside the excluded border. -/
def isCandidate (img : NDImage ℚ) (threshold_rel : ℚ) (border : Nat) (p : Coord) : Bool :=
  isStrictLocalMax img p &&
    decide (threshold_rel * fieldMax img ≤ img.val p) &&
    borderOK img.shape border p

/-- Lexicographic (row-major) order on coordinate vectors. -/
def lexLEb : Coord → Coord → Bool
  | [], _ => true
  | _ :: _, [] => false
  | a :: as, b :: bs => if a < b then true else if b < a then false else lexLEb as bs

/-- The deterministic ranking of candidate peaks: higher intensity first,
ties broken by row-major coordinate order. -/
def peakLE (img : NDImage ℚ) (p q : Coord) : Prop :=
  img.val q < img.val p ∨ (img.val p = img.val q ∧ lexLEb p q = true)

instance peakLE.decRel (img : NDImage ℚ) : DecidableRel (peakLE img) := fun p q => by
  unfold peakLE; infer_instance

/-- Greedy minimum-separation pass: scan the (already ranked) candidates,
rejecting any candidate whose Chebyshev distance to an already accepted one
is below min_distance; acc holds the candidates accepted so far. -/
def greedySel (min_distance : Nat) : List Coord → List Coord → List Coord
  | acc, [] => acc
  | acc, c :: cs =>
      if acc.any (fun a => chebDist a c < min_distance) then greedySel min_distance acc cs
      else greedySel min_distance (acc ++ [c]) cs

/-- A field is entirely flat: every pixel has the same intensity. -/
def isFlatField (img : NDImage ℚ) : Bool :=
  match allIndices img.shape with
  | [] => true
  | p :: ps => ps.all (fun q => img.val q == img.val p)

/-- Modelled from the spec: the peak extractor of
skimage.feature.peak_local_max (called at src/seedobjects.py lines 174-179,
library code not in this repository), following the spec's own algorithm
(a)-(d) and its flat-field edge case: an entirely flat field yields no
peaks; otherwise collect the strict local maxima passing the
relative-intensity and border filters, rank them by descending intensity
with row-major tie-break, and greedily enforce the minimum separation. -/
def acceptedPeaks (img : NDImage ℚ) (min_distance : Nat) (threshold_rel : ℚ)
    (border : Nat) : List Coord :=
  if isFlatField img then []
  else greedySel min_distance []
    (List.insertionSort (peakLE img)
      ((allIndices img.shape).filter (isCandidate img threshold_rel border)))

/-- Number of peaks retained by the num_peaks cap: the sentinel -1
(converted to numpy.inf at src/seedobjects.py lines 158-159) means no limit;
any other value caps the list at that many peaks (a non-positive value
retains none). -/
def numPeaksCap (max_seeds : Int) (n : Nat) : Nat :=
  if max_seeds = -1 then n else max_seeds.toNat

/-- Modelled from the spec: step (e) of the peak extractor — truncate the
accepted candidates (already in descending-intensity order) to the
max_seeds highest-ranked ones. -/
def peakLocalMax (img : NDImage ℚ) (min_distance : Nat) (threshold_rel : ℚ)
    (border : Nat) (max_seeds : Int) : List Coord :=
  (acceptedPeaks img min_distance threshold_rel border).take
    (numPeaksCap max_seeds (acceptedPeaks img min_distance threshold_rel border).length)

/-- The boolean marker mask of a list of peak coordinates (indices=False of
the library call: True exactly at the retained coordinates). -/
def maskOfPeaks (shape : List Nat) (peaks : List Coord) : NDImage Bool :=
  { shape := shape, val := fun p => decide (p ∈ peaks) }

/-- The center of a structuring element: componentwise half of its shape
(the anchoring convention of the dilation routine). -/
def selemCenter (selem : NDImage Bool) : Coord :=
  selem.shape.map (fun n => ((n / 2 : Nat) : Int))

/-- The True cells of a structuring element, as offsets from its center. -/
def selemOffsets (selem : NDImage Bool) : List Coord :=
  ((allIndices selem.shape).filter (fun q => selem.val q)).map
    (fun q => subC q (selemCenter selem))

/-- Modelled from the spec: skimage.morphology.binary_dilation(seeds,
s_elem) (called at src/seedobjects.py line 182, library code not in this
repository) — binary dilation: a pixel of the output is True when some
True cell of the structuring element, anchored at that pixel, covers a True
in-bounds pixel of the input mask. -/
def binaryDilation (mask : NDImage Bool) (selem : NDImage Bool) : NDImage Bool :=
  { shape := mask.shape
    val := fun p => (selemOffsets selem).any (fun off =>
      inBounds mask.shape (subC p off) && mask.val (subC p off)) }

/-- The distance-transform stage of generate_seeds (src/seedobjects.py
lines 161-168): pad by one layer of zeros, exact Euclidean distance
transform, crop the layer back. -/
def distanceStage (labels : NDImage Int) : NDImage ℚ :=
  cropOne (sqEDT (padOne labels))

/-- The smoothed field fed to the peak extractor (src/seedobjects.py
lines 161-171). -/
def smoothedField (labels : NDImage Int) (gaussian_sigma : ℚ) : NDImage ℚ :=
  gaussianSmooth gaussian_sigma (distanceStage labels)

/-- The seed mask before dilation (src/seedobjects.py lines 161-179): the
marker mask of the retained peaks of the smoothed field. -/
def preDilationMask (labels : NDImage Int) (gaussian_sigma : ℚ)
    (distance_threshold : Nat) (intensity_threshold : ℚ) (border : Nat)
    (max_seeds : Int) : NDImage Bool :=
  maskOfPeaks (smoothedField labels gaussian_sigma).shape
    (peakLocalMax (smoothedField labels gaussian_sigma)
      distance_threshold intensity_threshold border max_seeds)

/-- generate_seeds (src/seedobjects.py lines 156-184): the four-stage
pipeline, the parameters named as in the source. -/
def generate_seeds (labels : NDImage Int) (gaussian_sigma : ℚ)
    (distance_threshold : Nat) (intensity_threshold : ℚ) (border : Nat)
    (max_seeds : Int) (s_elem : NDImage Bool) : NDImage Bool :=
  binaryDilation
    (preDilationMask labels gaussian_sigma distance_threshold
      intensity_threshold border max_seeds)
    s_elem

/-- SeedObjects.run (src/seedobjects.py lines 138-153): validate that the
structuring element dimensionality equals the label array dimensionality;
on mismatch fail with the error message naming the two dimensions, before
the pipeline runs; otherwise run generate_seeds on the segmented labels. -/
def SeedObjectsRun (segmented : NDImage Int) (gaussian_sigma : ℚ)
    (distance_threshold : Nat) (intensity_threshold : ℚ) (border : Nat)
    (max_seeds : Int) (s_elem : NDImage Bool) : Except String (NDImage Bool) :=
  let strel_dim := s_elem.shape.length
  let im_dim := segmented.shape.length
  if strel_dim ≠ im_dim then
    Except.error ("Structuring element does not match object dimensions: "
      ++ toString strel_dim ++ " != " ++ toString im_dim)
  else
    Except.ok (generate_seeds segmented gaussian_sigma distance_threshold
      intensity_threshold border max_seeds s_elem)

/-- Number of True pixels of a boolean mask. -/
def numTrue (img : NDImage Bool) : Nat :=
  ((allIndices img.shape).filter (fun p => img.val p)).length

/-- Every in-bounds pixel of a boolean mask is False. -/
def allFalseMask (img : NDImage Bool) : Prop :=
  ∀ p ∈ allIndices img.shape, img.val p = false

instance (img : NDImage Bool) : Decidable (allFalseMask img) :=
  List.decidableBAll _ _

/-- The all-zero label array of a given shape. -/
def zeroImage (shape : List Nat) : NDImage Int :=
  { shape := shape, val := fun _ => 0 }

/-- Build a 2D integer image from a row-major list of rows. -/
def image2D (rows : List (List Int)) : NDImage Int :=
  { shape := [rows.length, (rows.headD []).length]
    val := fun p => ((rows.getD (p.getD 0 0).toNat []).getD (p.getD 1 0).toNat 0) }

/-- Build a 2D boolean image from a row-major list of rows. -/
def boolImage2D (rows : List (List Bool)) : NDImage Bool :=
  { shape := [rows.length, (rows.headD []).length]
    val := fun p => ((rows.getD (p.getD 0 0).toNat []).getD (p.getD 1 0).toNat false) }

/-- Build a 2D rational-valued field from a row-major list of rows. -/
def field2D (rows : List (List ℚ)) : NDImage ℚ :=
  { shape := [rows.length, (rows.headD []).length]
    val := fun p => ((rows.getD (p.getD 0 0).toNat []).getD (p.getD 1 0).toNat 0) }

/-- A 3×5 field with two isolated peaks of intensities 5 and 3. -/
def twoPeakField : NDImage ℚ := field2D
  [[0, 0, 0, 0, 0],
   [0, 5, 0, 3, 0],
   [0, 0, 0, 0, 0]]

/-- A 3×3 field with one central peak of intensity 5. -/
def onePeakField : NDImage ℚ := field2D
  [[0, 0, 0],
   [0, 5, 0],
   [0, 0, 0]]

/-- A 5×5 label array with four isolated single-pixel objects, at
coordinates (0,2), (3,2), (4,0) and (4,4).  Each object yields one
candidate peak of the same distance value, so the candidate ranking is
decided by the row-major tie-break. -/
def fourDotLabels : NDImage Int := image2D
  [[0, 0, 1, 0, 0],
   [0, 0, 0, 0, 0],
   [0, 0, 0, 0, 0],
   [0, 0, 1, 0, 0],
   [1, 0, 0, 0, 1]]

/-! ### Basic lemmas: bounds, index enumeration, distances -/

theorem inBounds_nil_iff (p : Coord) : inBounds [] p = true ↔ p = [] := by
  cases p <;> simp [inBounds]

theorem inBounds_cons_iff (n : Nat) (s : List Nat) (x : Int) (p : Coord) :
    inBounds (n :: s) (x :: p) = true ↔
      (0 ≤ x ∧ x < (n : Int)) ∧ inBounds s p = true := by
  simp [inBounds]
  tauto

theorem inBounds_cons_nil (n : Nat) (s : List Nat) :
    inBounds (n :: s) [] = false := by
  simp [inBounds]

theorem inBounds_length {s : List Nat} {p : Coord} (h : inBounds s p = true) :
    p.length = s.length := by
  have h1 := ((Bool.and_eq_true _ _).mp h).1
  simpa using h1

theorem mem_allIndices : ∀ (s : List Nat) (p : Coord),
    p ∈ allIndices s ↔ inBounds s p = true := by
  intro s
  induction s with
  | nil =>
    intro p
    rw [inBounds_nil_iff]
    simp [allIndices]
  | cons n s ih =>
    intro p
    cases p with
    | nil =>
      simp [allIndices, inBounds_cons_nil]
    | cons x q =>
      rw [inBounds_cons_iff]
      simp only [allIndices, List.mem_flatMap, List.mem_map, List.mem_range]
      constructor
      · rintro ⟨i, hi, q', hq', heq⟩
        injection heq with hx hq
        subst hx; subst hq
        exact ⟨⟨Int.ofNat_nonneg i, by exact_mod_cast hi⟩, (ih q').mp hq'⟩
      · rintro ⟨⟨hx0, hxn⟩, hq⟩
        refine ⟨x.toNat, ?_, q, (ih q).mpr hq, ?_⟩
        · omega
        · rw [Int.toNat_of_nonneg hx0]



theorem nodup_allIndices : ∀ s : List Nat, (allIndices s).Nodup
  | [] => by simp [allIndices]
  | n :: s => by
    rw [allIndices]
    refine List.nodup_flatMap.mpr ⟨?_, ?_⟩
    · intro i _
      exact (nodup_allIndices s).map (fun a b h => by injection h)
    · refine (List.nodup_range n).imp ?_
      intro a b hab p hpa hpb
      obtain ⟨qa, _, hqa⟩ := List.mem_map.mp hpa
      obtain ⟨qb, _, hqb⟩ := List.mem_map.mp hpb
      rw [← hqa] at hqb
      injection hqb with h1 h2
      exact hab (by exact_mod_cast h1.symm)

theorem minNatList_le_of_mem : ∀ {l : List Nat} {x : Nat}, x ∈ l → minNatList l ≤ x
  | [x'], x, h => by
    simp at h
    simp [minNatList, h]
  | a :: b :: r, x, h => by
    rcases List.mem_cons.mp h with h1 | h2
    · subst h1
      exact min_le_left _ _
    · exact le_trans (min_le_right _ _) (minNatList_le_of_mem h2)

theorem sqDist_cons (a b : Int) (l₁ l₂ : Coord) :
    sqDist (a :: l₁) (b :: l₂) = (a - b).natAbs ^ 2 + sqDist l₁ l₂ := by
  simp [sqDist, List.zipWith_cons_cons]

theorem sqDist_self : ∀ l : Coord, sqDist l l = 0
  | [] => rfl
  | a :: l => by rw [sqDist_cons, sqDist_self l]; simp

theorem sqDist_set : ∀ (l : Coord) (i : Nat), i < l.length → ∀ x : Int,
    sqDist l (l.set i x) = ((l.getD i 0) - x).natAbs ^ 2
  | a :: l, 0, _, x => by
    rw [List.set_cons_zero, sqDist_cons, sqDist_self l]
    simp [List.getD]
  | a :: l, i + 1, h, x => by
    have hi : i < l.length := by simpa using h
    rw [List.set_cons_succ, sqDist_cons, sqDist_set l i hi x]
    simp [List.getD]

theorem subC_self : ∀ c : Coord, subC c c = List.replicate c.length 0
  | [] => rfl
  | a :: c => by simp [subC, List.zipWith_cons_cons, sub_self, List.replicate_succ, subC_self c]

theorem subC_replicate_zero : ∀ (p : Coord) (n : Nat), p.length ≤ n →
    subC p (List.replicate n 0) = p
  | [], _, _ => by simp [subC]
  | a :: p, n + 1, h => by
    simp [subC, List.replicate_succ, List.zipWith_cons_cons]
    have := subC_replicate_zero p n (by simpa using h)
    simpa [subC] using this

/-! ### Shape preservation through the pipeline -/

theorem conv1D_shape (sigma : ℚ) (axis : Nat) (img : NDImage ℚ) :
    (conv1D sigma axis img).shape = img.shape := rfl

theorem foldl_conv1D_shape (sigma : ℚ) :
    ∀ (axes : List Nat) (img : NDImage ℚ),
      (axes.foldl (fun im ax => conv1D sigma ax im) img).shape = img.shape
  | [], _ => rfl
  | ax :: axes, img => by
    rw [List.foldl_cons, foldl_conv1D_shape sigma axes (conv1D sigma ax img),
      conv1D_shape]

theorem gaussianSmooth_shape (sigma : ℚ) (img : NDImage ℚ) :
    (gaussianSmooth sigma img).shape = img.shape :=
  foldl_conv1D_shape sigma _ img

theorem map_add_two_sub_two (s : List Nat) :
    (s.map (· + 2)).map (· - 2) = s := by
  rw [List.map_map]
  have h : ∀ a ∈ s, ((· - 2) ∘ (· + 2) : Nat → Nat) a = id a := by
    intro a _
    simp
  rw [List.map_congr_left h, List.map_id]

theorem distanceStage_shape (labels : NDImage Int) :
    (distanceStage labels).shape = labels.shape := by
  show ((labels.shape.map (· + 2)).map (· - 2)) = labels.shape
  exact map_add_two_sub_two labels.shape

theorem smoothedField_shape (labels : NDImage Int) (sigma : ℚ) :
    (smoothedField labels sigma).shape = labels.shape := by
  rw [smoothedField, gaussianSmooth_shape, distanceStage_shape]

/-- C1: for every label array and every configuration, the seed mask
returned by generate_seeds is a boolean array whose shape equals the shape
of the input label array — the one-pixel pad before the distance transform
is exactly undone by the crop, and smoothing, peak extraction and dilation
preserve the shape. -/
theorem C1_seed_mask_shape (labels : NDImage Int) (gaussian_sigma : ℚ)
    (distance_threshold : Nat) (intensity_threshold : ℚ) (border : Nat)
    (max_seeds : Int) (s_elem : NDImage Bool) :
    (generate_seeds labels gaussian_sigma distance_threshold intensity_threshold
      border max_seeds s_elem).shape = labels.shape := by
  show (smoothedField labels gaussian_sigma).shape = labels.shape
  exact smoothedField_shape labels gaussian_sigma

/-- C2: if the structuring element dimensionality differs from the label
array dimensionality, run fails with the configuration error naming the two
mismatched dimensions — the error branch is taken before the pipeline term
is ever produced, for every pipeline parameter; if the dimensionalities are
equal, no error is raised and the pipeline result is returned. -/
theorem C2_run_dimension_validation (segmented : NDImage Int) (gaussian_sigma : ℚ)
    (distance_threshold : Nat) (intensity_threshold : ℚ) (border : Nat)
    (max_seeds : Int) (s_elem : NDImage Bool) :
    (s_elem.shape.length ≠ segmented.shape.length →
      SeedObjectsRun segmented gaussian_sigma distance_threshold intensity_threshold
          border max_seeds s_elem =
        Except.error ("Structuring element does not match object dimensions: "
          ++ toString s_elem.shape.length ++ " != " ++ toString segmented.shape.length)) ∧
    (s_elem.shape.length = segmented.shape.length →
      SeedObjectsRun segmented gaussian_sigma distance_threshold intensity_threshold
          border max_seeds s_elem =
        Except.ok (generate_seeds segmented gaussian_sigma distance_threshold
          intensity_threshold border max_seeds s_elem)) := by
  constructor <;> intro h <;> simp [SeedObjectsRun, h]

/-- Witness for C2: a 3-dimensional structuring element against a
2-dimensional label array is rejected with the error naming 3 and 2; a
2-dimensional structuring element is accepted. -/
theorem C2_run_dimension_validation_witness :
    (SeedObjectsRun (zeroImage [2, 2]) 0 1 0 0 (-1) (NDImage.mk [3, 3, 3] (fun _ => true)) =
      Except.error ("Structuring element does not match object dimensions: "
        ++ toString (NDImage.mk [3, 3, 3] (fun _ : Coord => true)).shape.length
        ++ " != " ++ toString (zeroImage [2, 2]).shape.length)) ∧
    (SeedObjectsRun (zeroImage [2, 2]) 0 1 0 0 (-1) (NDImage.mk [3, 3] (fun _ => true)) =
      Except.ok (generate_seeds (zeroImage [2, 2]) 0 1 0 0 (-1)
        (NDImage.mk [3, 3] (fun _ => true)))) :=
  ⟨(C2_run_dimension_validation (zeroImage [2, 2]) 0 1 0 0 (-1)
      (NDImage.mk [3, 3, 3] (fun _ => true))).1 (by decide),
   (C2_run_dimension_validation (zeroImage [2, 2]) 0 1 0 0 (-1)
      (NDImage.mk [3, 3] (fun _ => true))).2 (by decide)⟩

/-! ### Distance-transform stage lemmas -/

theorem map_add_one_sub_one (p : Coord) : (p.map (· + 1)).map (· - 1) = p := by
  rw [List.map_map]
  have h : ∀ a ∈ p, ((· - 1) ∘ (· + 1) : Int → Int) a = id a := by
    intro a _
    simp
  rw [List.map_congr_left h, List.map_id]

theorem inBounds_pad : ∀ {s : List Nat} {p : Coord}, inBounds s p = true →
    inBounds (s.map (· + 2)) (p.map (· + 1)) = true := by
  intro s
  induction s with
  | nil =>
    intro p h
    rw [inBounds_nil_iff] at h
    subst h
    simp [inBounds_nil_iff]
  | cons n s ih =>
    intro p h
    cases p with
    | nil => rw [inBounds_cons_nil] at h; cases h
    | cons x q =>
      rw [inBounds_cons_iff] at h
      obtain ⟨⟨h0, h1⟩, h2⟩ := h
      simp only [List.map_cons]
      rw [inBounds_cons_iff]
      refine ⟨⟨by omega, ?_⟩, ih h2⟩
      push_cast
      omega

theorem inBounds_set_of_lt : ∀ {s : List Nat} {p : Coord}, inBounds s p = true →
    ∀ (i : Nat) (x : Int), 0 ≤ x → x < (s.getD i 0 : Int) →
      inBounds s (p.set i x) = true := by
  intro s
  induction s with
  | nil =>
    intro p h i x _ _
    rw [inBounds_nil_iff] at h
    subst h
    simp [inBounds_nil_iff]
  | cons n s ih =>
    intro p h i x hx0 hxn
    cases p with
    | nil => rw [inBounds_cons_nil] at h; cases h
    | cons y q =>
      rw [inBounds_cons_iff] at h
      obtain ⟨⟨h0, h1⟩, h2⟩ := h
      cases i with
      | zero =>
        rw [List.set_cons_zero, inBounds_cons_iff]
        exact ⟨⟨hx0, by simpa using hxn⟩, h2⟩
      | succ j =>
        rw [List.set_cons_succ, inBounds_cons_iff]
        exact ⟨⟨h0, h1⟩, ih h2 j x hx0 (by simpa using hxn)⟩

theorem inBounds_set_out : ∀ {s : List Nat} {p : Coord}, inBounds s p = true →
    ∀ (i : Nat), i < s.length → ∀ (x : Int),
      (x < 0 ∨ (s.getD i 0 : Int) ≤ x) → inBounds s (p.set i x) = false := by
  intro s
  induction s with
  | nil =>
    intro p _ i hi
    cases hi
  | cons n s ih =>
    intro p h i hi x hx
    cases p with
    | nil => rw [inBounds_cons_nil] at h; cases h
    | cons y q =>
      rw [inBounds_cons_iff] at h
      obtain ⟨⟨h0, h1⟩, h2⟩ := h
      cases i with
      | zero =>
        rw [List.set_cons_zero]
        rw [Bool.eq_false_iff]
        intro hc
        obtain ⟨⟨hc0, hc1⟩, _⟩ := inBounds_cons_iff n s x q |>.mp hc
        simp only [List.getD_cons_zero] at hx
        omega
      | succ j =>
        rw [List.set_cons_succ]
        rw [Bool.eq_false_iff]
        intro hc
        obtain ⟨_, hc2⟩ := inBounds_cons_iff n s y (q.set j x) |>.mp hc
        have hj : j < s.length := by simpa using hi
        have := ih h2 j hj x (by simpa using hx)
        rw [this] at hc2
        cases hc2

theorem getD_map_add_two {s : List Nat} {i : Nat} (hi : i < s.length) :
    (s.map (· + 2)).getD i 0 = s.getD i 0 + 2 := by
  rw [List.getD_eq_getElem _ _ (by simpa using hi), List.getD_eq_getElem _ _ hi]
  simp

theorem getD_map_add_one {p : Coord} {i : Nat} (hi : i < p.length) :
    (p.map (· + 1)).getD i 0 = p.getD i 0 + 1 := by
  rw [List.getD_eq_getElem _ _ (by simpa using hi), List.getD_eq_getElem _ _ hi]
  simp

theorem padOne_val_shift {labels : NDImage Int} {p : Coord}
    (h : inBounds labels.shape p = true) :
    (padOne labels).val (p.map (· + 1)) = labels.val p := by
  show (if inBounds labels.shape ((p.map (· + 1)).map (· - 1)) then
      labels.val ((p.map (· + 1)).map (· - 1)) else 0) = labels.val p
  rw [map_add_one_sub_one, if_pos h]

theorem mem_zeroCells {img : NDImage Int} {q : Coord}
    (hq : inBounds img.shape q = true) (h0 : img.val q = 0) : q ∈ zeroCells img := by
  rw [zeroCells, List.mem_filter]
  exact ⟨(mem_allIndices img.shape q).mpr hq, by simp [h0]⟩

theorem sqEDT_le {img : NDImage Int} (p : Coord) {q : Coord} (hq : q ∈ zeroCells img) :
    (sqEDT img).val p ≤ ((sqDist p q : ℕ) : ℚ) := by
  show ((minNatList ((zeroCells img).map (sqDist p)) : ℕ) : ℚ) ≤ _
  exact_mod_cast minNatList_le_of_mem (List.mem_map.mpr ⟨q, hq, rfl⟩)

theorem sqEDT_nonneg (img : NDImage Int) (p : Coord) : 0 ≤ (sqEDT img).val p := by
  show (0 : ℚ) ≤ ((minNatList ((zeroCells img).map (sqDist p)) : ℕ) : ℚ)
  exact_mod_cast Nat.zero_le _

theorem distanceStage_val (labels : NDImage Int) (p : Coord) :
    (distanceStage labels).val p = (sqEDT (padOne labels)).val (p.map (· + 1)) := rfl

theorem distanceStage_nonneg (labels : NDImage Int) (p : Coord) :
    0 ≤ (distanceStage labels).val p := sqEDT_nonneg _ _

theorem distanceStage_zero_at_background {labels : NDImage Int} {p : Coord}
    (hp : inBounds labels.shape p = true) (h0 : labels.val p = 0) :
    (distanceStage labels).val p = 0 := by
  have hq : (p.map (· + 1)) ∈ zeroCells (padOne labels) := by
    refine mem_zeroCells ?_ ?_
    · show inBounds (labels.shape.map (· + 2)) (p.map (· + 1)) = true
      exact inBounds_pad hp
    · rw [padOne_val_shift hp, h0]
  have h1 := sqEDT_le (p.map (· + 1)) hq
  rw [sqDist_self] at h1
  have h2 := distanceStage_nonneg labels p
  rw [distanceStage_val]
  rw [distanceStage_val] at h2
  exact le_antisymm (by simpa using h1) h2

theorem natAbs_sq_cast (a : Int) : ((a.natAbs ^ 2 : ℕ) : ℚ) = ((a : ℚ)) ^ 2 := by
  push_cast [Int.cast_natAbs]
  rw [sq_abs]

/-- C3: the distance-transform stage pads with exactly one zero layer,
takes the exact (squared) Euclidean distance transform with nonzero pixels
as foreground, and crops the layer back, so the result has the original
shape, is non-negative everywhere, is 0 at every background pixel, and
treats the array border as background: the value at a pixel is bounded by
the squared distance to the pad ring just outside the array, in every
dimension and on both sides; consequently an all-background array yields
the all-zero field. -/
theorem C3_distance_transform (labels : NDImage Int) :
    (distanceStage labels).shape = labels.shape ∧
    (∀ p : Coord, 0 ≤ (distanceStage labels).val p) ∧
    (∀ p : Coord, inBounds labels.shape p = true → labels.val p = 0 →
      (distanceStage labels).val p = 0) ∧
    (∀ p : Coord, inBounds labels.shape p = true → ∀ i : Nat,
      i < labels.shape.length →
      (distanceStage labels).val p ≤ (((p.getD i 0 + 1 : Int)) : ℚ) ^ 2 ∧
      (distanceStage labels).val p ≤
        ((((labels.shape.getD i 0 : Int) - p.getD i 0 : Int)) : ℚ) ^ 2) ∧
    ((∀ p : Coord, inBounds labels.shape p = true → labels.val p = 0) →
      ∀ p : Coord, inBounds labels.shape p = true →
        (distanceStage labels).val p = 0) := by
  refine ⟨distanceStage_shape labels, distanceStage_nonneg labels,
    fun p hp h0 => distanceStage_zero_at_background hp h0, ?_,
    fun hall p hp => distanceStage_zero_at_background hp (hall p hp)⟩
  intro p hp i hi
  have hplen : p.length = labels.shape.length := inBounds_length hp
  have hip : i < p.length := by rw [hplen]; exact hi
  have hil : i < (p.map (· + 1)).length := by rw [List.length_map]; exact hip
  have hpad := inBounds_pad hp
  constructor
  · have hq0z : (padOne labels).val ((p.map (· + 1)).set i 0) = 0 := by
      show (if inBounds labels.shape (((p.map (· + 1)).set i 0).map (· - 1)) then _
        else 0) = 0
      have hm : ((p.map (· + 1)).set i 0).map (· - 1) = p.set i (-1) := by
        rw [List.map_set, map_add_one_sub_one]
        norm_num
      rw [hm, inBounds_set_out hp i hi (-1) (Or.inl (by norm_num))]
      simp
    have hq0m : ((p.map (· + 1)).set i 0) ∈ zeroCells (padOne labels) := by
      refine mem_zeroCells ?_ hq0z
      show inBounds (labels.shape.map (· + 2)) _ = true
      refine inBounds_set_of_lt hpad i 0 le_rfl ?_
      rw [getD_map_add_two hi]
      push_cast
      omega
    have hle := sqEDT_le (p.map (· + 1)) hq0m
    rw [sqDist_set (p.map (· + 1)) i hil 0] at hle
    have hcast : ((((p.map (· + 1)).getD i 0 - 0).natAbs ^ 2 : ℕ) : ℚ)
        = (((p.getD i 0 + 1 : Int)) : ℚ) ^ 2 := by
      rw [natAbs_sq_cast, getD_map_add_one hip]
      norm_num
    rw [hcast] at hle
    exact hle
  · have hq1z : (padOne labels).val
        ((p.map (· + 1)).set i ((labels.shape.getD i 0 : Int) + 1)) = 0 := by
      show (if inBounds labels.shape
          ((((p.map (· + 1)).set i ((labels.shape.getD i 0 : Int) + 1))).map (· - 1))
        then _ else 0) = 0
      have hm : (((p.map (· + 1)).set i ((labels.shape.getD i 0 : Int) + 1))).map (· - 1)
          = p.set i (labels.shape.getD i 0 : Int) := by
        rw [List.map_set, map_add_one_sub_one]
        norm_num
      rw [hm, inBounds_set_out hp i hi _ (Or.inr le_rfl)]
      simp
    have hq1m : ((p.map (· + 1)).set i ((labels.shape.getD i 0 : Int) + 1))
        ∈ zeroCells (padOne labels) := by
      refine mem_zeroCells ?_ hq1z
      show inBounds (labels.shape.map (· + 2)) _ = true
      refine inBounds_set_of_lt hpad i _ (by positivity) ?_
      rw [getD_map_add_two hi]
      push_cast
      omega
    have hle := sqEDT_le (p.map (· + 1)) hq1m
    rw [sqDist_set (p.map (· + 1)) i hil _] at hle
    have hcast : ((((p.map (· + 1)).getD i 0
          - ((labels.shape.getD i 0 : Int) + 1)).natAbs ^ 2 : ℕ) : ℚ)
        = ((((labels.shape.getD i 0 : Int) - p.getD i 0 : Int)) : ℚ) ^ 2 := by
      rw [natAbs_sq_cast, getD_map_add_one hip]
      push_cast
      ring
    rw [hcast] at hle
    exact hle

/-- Witness for C3: on the 1×2 label array whose row is 0, 1, the
distance field is 0 at the background pixel and at most 1 at the foreground
pixel adjacent to the right border. -/
theorem C3_distance_transform_witness :
    (distanceStage (image2D [[0, 1]])).val [0, 0] = 0 ∧
    (distanceStage (image2D [[0, 1]])).val [0, 1] ≤ 1 :=
  ⟨(C3_distance_transform (image2D [[0, 1]])).2.2.1 [0, 0] (by decide) (by decide),
   le_of_le_of_eq
     (((C3_distance_transform (image2D [[0, 1]])).2.2.2.1 [0, 1]
        (by decide) 1 (by decide)).2)
     (by decide)⟩

/-! ### The candidate ranking is a total order -/

theorem lexLEb_total : ∀ p q : Coord, lexLEb p q = true ∨ lexLEb q p = true
  | [], _ => Or.inl rfl
  | _ :: _, [] => Or.inr rfl
  | a :: as, b :: bs => by
    by_cases h1 : a < b
    · exact Or.inl (by simp [lexLEb, h1])
    · by_cases h2 : b < a
      · exact Or.inr (by simp [lexLEb, h2])
      · have hab : a = b := le_antisymm (not_lt.mp h2) (not_lt.mp h1)
        subst hab
        rcases lexLEb_total as bs with h | h
        · exact Or.inl (by simp [lexLEb, lt_irrefl, h])
        · exact Or.inr (by simp [lexLEb, lt_irrefl, h])

theorem lexLEb_trans : ∀ {p q r : Coord},
    lexLEb p q = true → lexLEb q r = true → lexLEb p r = true
  | [], _, _, _, _ => rfl
  | _ :: _, [], _, h, _ => by cases h
  | _ :: _, _ :: _, [], _, h => by cases h
  | a :: as, b :: bs, c :: cs, h1, h2 => by
    simp only [lexLEb] at h1 h2 ⊢
    by_cases hab : a < b
    · by_cases hbc : b < c
      · rw [if_pos (lt_trans hab hbc)]
      · by_cases hcb : c < b
        · rw [if_neg hbc, if_pos hcb] at h2
          cases h2
        · have hbc' : b = c := le_antisymm (not_lt.mp hcb) (not_lt.mp hbc)
          subst hbc'
          rw [if_pos hab]
    · by_cases hba : b < a
      · rw [if_neg hab, if_pos hba] at h1
        cases h1
      · have hab' : a = b := le_antisymm (not_lt.mp hba) (not_lt.mp hab)
        subst hab'
        rw [if_neg (lt_irrefl a), if_neg (lt_irrefl a)] at h1
        by_cases hac : a < c
        · rw [if_pos hac]
        · by_cases hca : c < a
          · rw [if_neg hac, if_pos hca] at h2
            cases h2
          · have hac' : a = c := le_antisymm (not_lt.mp hca) (not_lt.mp hac)
            subst hac'
            rw [if_neg (lt_irrefl a), if_neg (lt_irrefl a)] at h2 ⊢
            exact lexLEb_trans h1 h2

theorem lexLEb_antisymm : ∀ {p q : Coord},
    lexLEb p q = true → lexLEb q p = true → p = q
  | [], [], _, _ => rfl
  | [], _ :: _, _, h => by cases h
  | _ :: _, [], h, _ => by cases h
  | a :: as, b :: bs, h1, h2 => by
    simp only [lexLEb] at h1 h2
    by_cases hab : a < b
    · rw [if_neg (asymm hab), if_pos hab] at h2
      cases h2
    · by_cases hba : b < a
      · rw [if_neg hab, if_pos hba] at h1
        cases h1
      · have hab' : a = b := le_antisymm (not_lt.mp hba) (not_lt.mp hab)
        subst hab'
        rw [if_neg (lt_irrefl a), if_neg (lt_irrefl a)] at h1 h2
        rw [lexLEb_antisymm h1 h2]

instance peakLE_total (img : NDImage ℚ) : IsTotal Coord (peakLE img) := by
  refine ⟨fun p q => ?_⟩
  rcases lt_trichotomy (img.val p) (img.val q) with h | h | h
  · exact Or.inr (Or.inl h)
  · rcases lexLEb_total p q with hl | hl
    · exact Or.inl (Or.inr ⟨h, hl⟩)
    · exact Or.inr (Or.inr ⟨h.symm, hl⟩)
  · exact Or.inl (Or.inl h)

instance peakLE_trans (img : NDImage ℚ) : IsTrans Coord (peakLE img) := by
  refine ⟨fun p q r h1 h2 => ?_⟩
  rcases h1 with h1 | ⟨h1e, h1l⟩
  · rcases h2 with h2 | ⟨h2e, h2l⟩
    · exact Or.inl (lt_trans h2 h1)
    · exact Or.inl (by rw [← h2e]; exact h1)
  · rcases h2 with h2 | ⟨h2e, h2l⟩
    · exact Or.inl (by rw [h1e]; exact h2)
    · exact Or.inr ⟨h1e.trans h2e, lexLEb_trans h1l h2l⟩

instance peakLE_antisymm (img : NDImage ℚ) : IsAntisymm Coord (peakLE img) := by
  refine ⟨fun p q h1 h2 => ?_⟩
  rcases h1 with h1 | ⟨h1e, h1l⟩
  · rcases h2 with h2 | ⟨h2e, h2l⟩
    · exact absurd (lt_trans h1 h2) (lt_irrefl _)
    · exact absurd h1 (by rw [h2e]; exact lt_irrefl _)
  · rcases h2 with h2 | ⟨h2e, h2l⟩
    · exact absurd h2 (by rw [h1e]; exact lt_irrefl _)
    · exact lexLEb_antisymm h1l h2l

theorem peakLE_val_le {img : NDImage ℚ} {p q : Coord} (h : peakLE img p q) :
    img.val q ≤ img.val p := by
  rcases h with h | ⟨he, _⟩
  · exact le_of_lt h
  · exact le_of_eq he.symm

/-! ### Greedy separation pass: structural lemmas -/

theorem greedySel_append (d : Nat) : ∀ (l₁ l₂ acc : List Coord),
    greedySel d acc (l₁ ++ l₂) = greedySel d (greedySel d acc l₁) l₂
  | [], l₂, acc => by simp [greedySel]
  | c :: cs, l₂, acc => by
    by_cases h : (acc.any fun a => chebDist a c < d) = true
    · have e1 : greedySel d acc ((c :: cs) ++ l₂) = greedySel d acc (cs ++ l₂) := by
        simp [greedySel, h]
      have e2 : greedySel d acc (c :: cs) = greedySel d acc cs := by
        simp [greedySel, h]
      rw [e1, e2]
      exact greedySel_append d cs l₂ acc
    · have e1 : greedySel d acc ((c :: cs) ++ l₂) = greedySel d (acc ++ [c]) (cs ++ l₂) := by
        simp [greedySel, h]
      have e2 : greedySel d acc (c :: cs) = greedySel d (acc ++ [c]) cs := by
        simp [greedySel, h]
      rw [e1, e2]
      exact greedySel_append d cs l₂ (acc ++ [c])

theorem greedySel_sublist (d : Nat) : ∀ (l acc : List Coord),
    ∃ u, u.Sublist l ∧ greedySel d acc l = acc ++ u
  | [], acc => ⟨[], List.Sublist.refl [], by simp [greedySel]⟩
  | c :: cs, acc => by
    by_cases h : (acc.any fun a => chebDist a c < d) = true
    · obtain ⟨u, hs, hu⟩ := greedySel_sublist d cs acc
      refine ⟨u, hs.cons c, ?_⟩
      rw [show greedySel d acc (c :: cs) = greedySel d acc cs from by simp [greedySel, h]]
      exact hu
    · obtain ⟨u, hs, hu⟩ := greedySel_sublist d cs (acc ++ [c])
      refine ⟨c :: u, hs.cons₂ c, ?_⟩
      rw [show greedySel d acc (c :: cs) = greedySel d (acc ++ [c]) cs from by
        simp [greedySel, h]]
      rw [hu, List.append_assoc, List.singleton_append]

theorem greedySel_zero : ∀ (l acc : List Coord), greedySel 0 acc l = acc ++ l
  | [], acc => by simp [greedySel]
  | c :: cs, acc => by
    have e : greedySel 0 acc (c :: cs) = greedySel 0 (acc ++ [c]) cs := by
      simp [greedySel]
    rw [e, greedySel_zero cs (acc ++ [c]), List.append_assoc, List.singleton_append]

/-! ### Structure of the accepted-peak list -/

theorem acceptedPeaks_flat {img : NDImage ℚ} {d : Nat} {t : ℚ} {b : Nat}
    (h : isFlatField img = true) : acceptedPeaks img d t b = [] := by
  simp [acceptedPeaks, h]

theorem acceptedPeaks_sublist (img : NDImage ℚ) (d : Nat) (t : ℚ) (b : Nat) :
    (acceptedPeaks img d t b).Sublist
      (List.insertionSort (peakLE img)
        ((allIndices img.shape).filter (isCandidate img t b))) := by
  by_cases hf : isFlatField img = true
  · rw [acceptedPeaks_flat hf]
    exact List.nil_sublist _
  · rw [acceptedPeaks, if_neg hf]
    obtain ⟨u, hs, hu⟩ := greedySel_sublist d
      (List.insertionSort (peakLE img)
        ((allIndices img.shape).filter (isCandidate img t b))) []
    rw [hu]
    simpa using hs

theorem sortedCands_nodup (img : NDImage ℚ) (t : ℚ) (b : Nat) :
    (List.insertionSort (peakLE img)
      ((allIndices img.shape).filter (isCandidate img t b))).Nodup :=
  ((List.perm_insertionSort (peakLE img) _).nodup_iff).mpr
    ((nodup_allIndices img.shape).filter _)

theorem acceptedPeaks_nodup (img : NDImage ℚ) (d : Nat) (t : ℚ) (b : Nat) :
    (acceptedPeaks img d t b).Nodup :=
  (acceptedPeaks_sublist img d t b).nodup (sortedCands_nodup img t b)

theorem acceptedPeaks_pairwise (img : NDImage ℚ) (d : Nat) (t : ℚ) (b : Nat) :
    List.Pairwise (peakLE img) (acceptedPeaks img d t b) :=
  List.Pairwise.sublist (acceptedPeaks_sublist img d t b)
    (List.sorted_insertionSort (peakLE img) _)

theorem mem_acceptedPeaks {img : NDImage ℚ} {d : Nat} {t : ℚ} {b : Nat} {p : Coord}
    (h : p ∈ acceptedPeaks img d t b) :
    p ∈ allIndices img.shape ∧ isCandidate img t b p = true := by
  have hm := (acceptedPeaks_sublist img d t b).subset h
  rw [List.mem_insertionSort, List.mem_filter] at hm
  exact hm

theorem mem_peakLocalMax {img : NDImage ℚ} {d : Nat} {t : ℚ} {b : Nat} {m : Int}
    {p : Coord} (h : p ∈ peakLocalMax img d t b m) : p ∈ acceptedPeaks img d t b :=
  List.mem_of_mem_take h

theorem peakLocalMax_nodup (img : NDImage ℚ) (d : Nat) (t : ℚ) (b : Nat) (m : Int) :
    (peakLocalMax img d t b m).Nodup :=
  (List.take_sublist _ _).nodup (acceptedPeaks_nodup img d t b)

theorem numTrue_maskOfPeaks {shape : List Nat} {peaks : List Coord}
    (hsub : ∀ p ∈ peaks, p ∈ allIndices shape) (hnd : peaks.Nodup) :
    numTrue (maskOfPeaks shape peaks) = peaks.length := by
  have hperm : List.Perm ((allIndices shape).filter (fun p => decide (p ∈ peaks))) peaks := by
    rw [List.perm_ext_iff_of_nodup ((nodup_allIndices shape).filter _) hnd]
    intro a
    rw [List.mem_filter]
    constructor
    · rintro ⟨_, ha⟩
      exact of_decide_eq_true ha
    · intro ha
      exact ⟨hsub a ha, decide_eq_true ha⟩
  exact hperm.length_eq

/-- C4: a pixel retained by the peak extractor has intensity at least
threshold_rel times the maximum intensity of the field — a relative
threshold, not an absolute one; and threshold_rel = 0 disables the filter:
every strict local maximum above background outside the excluded border is
a candidate. -/
theorem C4_threshold_rel (img : NDImage ℚ) (d : Nat) (t : ℚ) (b : Nat) (m : Int) :
    (∀ p ∈ peakLocalMax img d t b m, t * fieldMax img ≤ img.val p) ∧
    (∀ p : Coord, isStrictLocalMax img p = true → borderOK img.shape b p = true →
      0 ≤ img.val p → isCandidate img 0 b p = true) := by
  constructor
  · intro p hp
    have hc := (mem_acceptedPeaks (mem_peakLocalMax hp)).2
    rw [isCandidate] at hc
    exact of_decide_eq_true ((Bool.and_eq_true _ _).mp
      ((Bool.and_eq_true _ _).mp hc).1).2
  · intro p h1 h2 h3
    rw [isCandidate, h1, h2]
    simp only [Bool.true_and, Bool.and_true, decide_eq_true_eq, zero_mul]
    exact h3

set_option maxRecDepth 100000 in
/-- Witness for C4: in the two-peak field, the retained peak of intensity 5
clears the relative threshold one half, and with threshold zero the peak of
intensity 3 is a candidate. -/
theorem C4_threshold_rel_witness :
    ((1 : ℚ) / 2) * fieldMax twoPeakField ≤ twoPeakField.val [1, 1] ∧
    isCandidate twoPeakField 0 0 [1, 3] = true :=
  ⟨(C4_threshold_rel twoPeakField 1 ((1 : ℚ) / 2) 0 (-1)).1 [1, 1] (by decide),
   (C4_threshold_rel twoPeakField 1 ((1 : ℚ) / 2) 0 (-1)).2 [1, 3]
     (by decide) (by decide) (by decide)⟩

/-- C5: when max_seeds is a positive count and more candidates survive the
filtering and separation rules, exactly max_seeds peaks are retained — the
highest-ranked ones under descending intensity with the deterministic
row-major tie-break (every retained peak ranks at least as high as every
dropped accepted candidate) — so the number of True pixels in the
pre-dilation mask equals max_seeds; and max_seeds = -1 applies no limit. -/
theorem C5_max_seeds (img : NDImage ℚ) (d : Nat) (t : ℚ) (b : Nat) (m : Int)
    (hm : 0 < m) (hlen : m.toNat < (acceptedPeaks img d t b).length) :
    (peakLocalMax img d t b m).length = m.toNat ∧
    numTrue (maskOfPeaks img.shape (peakLocalMax img d t b m)) = m.toNat ∧
    (∀ p ∈ peakLocalMax img d t b m, ∀ q ∈ acceptedPeaks img d t b,
      q ∉ peakLocalMax img d t b m → peakLE img p q) ∧
    peakLocalMax img d t b (-1) = acceptedPeaks img d t b := by
  have hm1 : m ≠ -1 := by omega
  have hcap : numPeaksCap m (acceptedPeaks img d t b).length = m.toNat := by
    rw [numPeaksCap, if_neg hm1]
  have hlen1 : (peakLocalMax img d t b m).length = m.toNat := by
    rw [peakLocalMax, hcap, List.length_take]
    exact min_eq_left (le_of_lt hlen)
  refine ⟨hlen1, ?_, ?_, ?_⟩
  · rw [numTrue_maskOfPeaks
      (fun p hp => (mem_acceptedPeaks (mem_peakLocalMax hp)).1)
      (peakLocalMax_nodup img d t b m)]
    exact hlen1
  · intro p hp q hq hnq
    have hsplit := List.take_append_drop
      (numPeaksCap m (acceptedPeaks img d t b).length) (acceptedPeaks img d t b)
    have hpair := acceptedPeaks_pairwise img d t b
    rw [← hsplit] at hpair
    have hcross := (List.pairwise_append.mp hpair).2.2
    have hq' : q ∈ List.take (numPeaksCap m (acceptedPeaks img d t b).length)
          (acceptedPeaks img d t b) ++
        List.drop (numPeaksCap m (acceptedPeaks img d t b).length)
          (acceptedPeaks img d t b) := by
      rw [hsplit]
      exact hq
    rcases List.mem_append.mp hq' with hq1 | hq2
    · exact absurd hq1 hnq
    · exact hcross p hp q hq2
  · rw [peakLocalMax, numPeaksCap, if_pos rfl, List.take_length]

set_option maxRecDepth 100000 in
/-- Witness for C5: the two-peak field has two accepted candidates; with
max_seeds = 1 exactly the higher-intensity one is retained. -/
theorem C5_max_seeds_witness :
    (0 : Int) < 1 ∧ (Int.toNat 1) < (acceptedPeaks twoPeakField 1 0 0).length ∧
    ((peakLocalMax twoPeakField 1 0 0 1).length = (1 : Int).toNat ∧
     numTrue (maskOfPeaks twoPeakField.shape (peakLocalMax twoPeakField 1 0 0 1)) =
       (1 : Int).toNat ∧
     (∀ p ∈ peakLocalMax twoPeakField 1 0 0 1, ∀ q ∈ acceptedPeaks twoPeakField 1 0 0,
       q ∉ peakLocalMax twoPeakField 1 0 0 1 → peakLE twoPeakField p q) ∧
     peakLocalMax twoPeakField 1 0 0 (-1) = acceptedPeaks twoPeakField 1 0 0) :=
  ⟨by decide, by decide, C5_max_seeds twoPeakField 1 0 0 1 (by decide) (by decide)⟩

/-! ### Degenerate inputs: flat fields and empty masks -/

theorem inBounds_getD : ∀ {s : List Nat} {p : Coord}, inBounds s p = true →
    ∀ i : Nat, i < s.length → 0 ≤ p.getD i 0 ∧ p.getD i 0 < (s.getD i 0 : Int) := by
  intro s
  induction s with
  | nil =>
    intro p _ i hi
    exact absurd hi (Nat.not_lt_zero i)
  | cons n s ih =>
    intro p h i hi
    cases p with
    | nil => rw [inBounds_cons_nil] at h; cases h
    | cons x q =>
      rw [inBounds_cons_iff] at h
      cases i with
      | zero => simpa using h.1
      | succ j =>
        have := ih h.2 j (by simpa using hi)
        simpa using this

theorem clampIdx_mem {n : Nat} (hn : 0 < n) (z : Int) :
    0 ≤ clampIdx n z ∧ clampIdx n z < (n : Int) := by
  rw [clampIdx]
  refine ⟨le_max_left 0 _, ?_⟩
  rw [max_lt_iff]
  refine ⟨by exact_mod_cast hn, ?_⟩
  calc min z ((n : Int) - 1) ≤ (n : Int) - 1 := min_le_right _ _
    _ < (n : Int) := by omega

theorem inBounds_clamp_set {s : List Nat} {p : Coord} (h : inBounds s p = true)
    (axis : Nat) (z : Int) :
    inBounds s (p.set axis (clampIdx (s.getD axis 0) z)) = true := by
  by_cases haxis : axis < p.length
  · have hlen := inBounds_length h
    have haxs : axis < s.length := by rw [← hlen]; exact haxis
    have hcomp := inBounds_getD h axis haxs
    have hn : 0 < s.getD axis 0 := by
      rcases hcomp with ⟨h0, h1⟩
      have : (0 : Int) < (s.getD axis 0 : Int) := lt_of_le_of_lt h0 h1
      exact_mod_cast this
    obtain ⟨hc0, hc1⟩ := clampIdx_mem hn z
    exact inBounds_set_of_lt h axis _ hc0 hc1
  · rw [List.set_eq_of_length_le (not_lt.mp haxis)]
    exact h

theorem conv1D_zeroOn {img : NDImage ℚ} (sigma : ℚ) (axis : Nat)
    (h : ∀ p : Coord, inBounds img.shape p = true → img.val p = 0) :
    ∀ p : Coord, inBounds (conv1D sigma axis img).shape p = true →
      (conv1D sigma axis img).val p = 0 := by
  intro p hp
  have hp' : inBounds img.shape p = true := hp
  apply List.sum_eq_zero
  intro x hx
  obtain ⟨j, _, rfl⟩ := List.mem_map.mp hx
  rw [h _ (inBounds_clamp_set hp' axis _), mul_zero]

theorem foldl_conv1D_zeroOn (sigma : ℚ) : ∀ (axes : List Nat) (im : NDImage ℚ),
    (∀ p : Coord, inBounds im.shape p = true → im.val p = 0) →
    ∀ p : Coord,
      inBounds ((axes.foldl (fun i a => conv1D sigma a i) im)).shape p = true →
      (axes.foldl (fun i a => conv1D sigma a i) im).val p = 0
  | [], im, h => h
  | ax :: axes, im, h => by
    rw [List.foldl_cons]
    exact foldl_conv1D_zeroOn sigma axes (conv1D sigma ax im) (conv1D_zeroOn sigma ax h)

theorem gaussianSmooth_zeroOn {img : NDImage ℚ} (sigma : ℚ)
    (h : ∀ p : Coord, inBounds img.shape p = true → img.val p = 0) :
    ∀ p : Coord, inBounds (gaussianSmooth sigma img).shape p = true →
      (gaussianSmooth sigma img).val p = 0 :=
  foldl_conv1D_zeroOn sigma _ img h

theorem isFlatField_of_zeroOn {img : NDImage ℚ}
    (h : ∀ p : Coord, inBounds img.shape p = true → img.val p = 0) :
    isFlatField img = true := by
  unfold isFlatField
  split
  · rfl
  · next p ps hcons =>
    rw [List.all_eq_true]
    intro q hq
    have hpm : p ∈ allIndices img.shape := by
      rw [hcons]
      exact List.mem_cons_self _ _
    have hqm : q ∈ allIndices img.shape := by
      rw [hcons]
      exact List.mem_cons_of_mem _ hq
    simp [h p ((mem_allIndices _ _).mp hpm), h q ((mem_allIndices _ _).mp hqm)]

theorem binaryDilation_allFalse {mask : NDImage Bool} (selem : NDImage Bool)
    (h : ∀ q : Coord, mask.val q = false) :
    allFalseMask (binaryDilation mask selem) := by
  intro p _
  show (selemOffsets selem).any (fun off =>
    inBounds mask.shape (subC p off) && mask.val (subC p off)) = false
  rw [Bool.eq_false_iff]
  intro hc
  obtain ⟨off, _, hoff⟩ := List.any_eq_true.mp hc
  rw [h (subC p off)] at hoff
  simp at hoff

theorem flat_generate_seeds_allFalse (labels : NDImage Int) (gaussian_sigma : ℚ)
    (distance_threshold : Nat) (intensity_threshold : ℚ) (border : Nat)
    (max_seeds : Int) (s_elem : NDImage Bool)
    (hflat : isFlatField (smoothedField labels gaussian_sigma) = true) :
    allFalseMask (generate_seeds labels gaussian_sigma distance_threshold
      intensity_threshold border max_seeds s_elem) := by
  apply binaryDilation_allFalse
  intro q
  show decide (q ∈ peakLocalMax (smoothedField labels gaussian_sigma)
    distance_threshold intensity_threshold border max_seeds) = false
  rw [peakLocalMax, acceptedPeaks_flat hflat]
  simp

/-- C8: degenerate inputs do not fail: when the smoothed field is entirely
flat, generate_seeds completes with an all-False seed mask, for every
min_distance, threshold_rel, exclude_border, max_seeds and structuring
element (the model is a total function, so completion is inherent); in
particular an all-zero label array of any shape — whose distance field and
smoothed field are identically zero for every sigma — yields the all-False
mask regardless of all parameters. -/
theorem C8_flat_all_false (labels : NDImage Int) (gaussian_sigma : ℚ)
    (distance_threshold : Nat) (intensity_threshold : ℚ) (border : Nat)
    (max_seeds : Int) (s_elem : NDImage Bool) :
    (isFlatField (smoothedField labels gaussian_sigma) = true →
      allFalseMask (generate_seeds labels gaussian_sigma distance_threshold
        intensity_threshold border max_seeds s_elem)) ∧
    (∀ shape : List Nat,
      allFalseMask (generate_seeds (zeroImage shape) gaussian_sigma
        distance_threshold intensity_threshold border max_seeds s_elem)) := by
  constructor
  · exact fun h => flat_generate_seeds_allFalse labels gaussian_sigma
      distance_threshold intensity_threshold border max_seeds s_elem h
  · intro shape
    apply flat_generate_seeds_allFalse
    apply isFlatField_of_zeroOn
    apply gaussianSmooth_zeroOn
    intro p hp
    exact distanceStage_zero_at_background (by rwa [distanceStage_shape] at hp) rfl

set_option maxRecDepth 100000 in
/-- Witness for C8: the 2×2 all-zero label array has a flat smoothed field
and generate_seeds returns the all-False mask. -/
theorem C8_flat_all_false_witness :
    isFlatField (smoothedField (zeroImage [2, 2]) 0) = true ∧
    allFalseMask (generate_seeds (zeroImage [2, 2]) 0 1 0 0 (-1)
      (NDImage.mk [3, 3] (fun _ => true))) :=
  ⟨by decide,
   (C8_flat_all_false (zeroImage [2, 2]) 0 1 0 0 (-1)
     (NDImage.mk [3, 3] (fun _ => true))).1 (by decide)⟩

theorem inBounds_center : ∀ {s : List Nat}, (∀ n ∈ s, 0 < n) →
    inBounds s (s.map (fun n => ((n / 2 : Nat) : Int))) = true := by
  intro s
  induction s with
  | nil =>
    intro _
    simp [inBounds_nil_iff]
  | cons n s ih =>
    intro hpos
    simp only [List.map_cons]
    rw [inBounds_cons_iff]
    refine ⟨⟨Int.ofNat_nonneg _, ?_⟩, ih (fun x hx => hpos x (List.mem_cons_of_mem _ hx))⟩
    have hn : 0 < n := hpos n (List.mem_cons_self _ _)
    exact_mod_cast Nat.div_lt_self hn (by norm_num)

/-- C9: dilation is extensive — for every mask and every valid structuring
element (same dimensionality as the mask, every extent positive, True at
its center, as all the structuring-element shapes offered by the module
are), every pixel that is True before dilation is still True after it. -/
theorem C9_dilation_extensive (mask selem : NDImage Bool)
    (hdim : selem.shape.length = mask.shape.length)
    (hpos : ∀ n ∈ selem.shape, 0 < n)
    (hc : selem.val (selemCenter selem) = true) :
    ∀ p ∈ allIndices mask.shape, mask.val p = true →
      (binaryDilation mask selem).val p = true := by
  intro p hp hv
  show (selemOffsets selem).any (fun off =>
    inBounds mask.shape (subC p off) && mask.val (subC p off)) = true
  rw [List.any_eq_true]
  refine ⟨subC (selemCenter selem) (selemCenter selem), ?_, ?_⟩
  · rw [selemOffsets, List.mem_map]
    refine ⟨selemCenter selem, ?_, rfl⟩
    rw [List.mem_filter]
    exact ⟨(mem_allIndices _ _).mpr (inBounds_center hpos), hc⟩
  · rw [subC_self]
    have hlen : p.length ≤ (selemCenter selem).length := by
      rw [selemCenter, List.length_map, hdim,
        inBounds_length ((mem_allIndices _ _).mp hp)]
    rw [subC_replicate_zero p _ hlen]
    simp [(mem_allIndices _ _).mp hp, hv]

/-- Witness for C9: dilating a 2×2 mask with one True pixel by the 3×3
all-True square keeps that pixel True. -/
theorem C9_dilation_extensive_witness :
    (binaryDilation (boolImage2D [[false, true], [false, false]])
      (NDImage.mk [3, 3] (fun _ => true))).val [0, 1] = true :=
  C9_dilation_extensive (boolImage2D [[false, true], [false, false]])
    (NDImage.mk [3, 3] (fun _ => true)) (by decide) (by decide) (by decide)
    [0, 1] (by decide) (by decide)

/-- C10: generate_seeds performs no validation of max_seeds: only the exact
sentinel -1 is converted to no-limit, and the out-of-domain value 0 raises
no error — the pipeline is total and retains zero peaks, returning an
all-False seed mask for every input array and every other parameter. -/
theorem C10_max_seeds_zero (labels : NDImage Int) (gaussian_sigma : ℚ)
    (distance_threshold : Nat) (intensity_threshold : ℚ) (border : Nat)
    (s_elem : NDImage Bool) :
    allFalseMask (generate_seeds labels gaussian_sigma distance_threshold
      intensity_threshold border 0 s_elem) ∧
    (∀ n : Nat, numPeaksCap (-1) n = n) ∧ (∀ n : Nat, numPeaksCap 0 n = 0) := by
  refine ⟨?_, fun n => by rw [numPeaksCap, if_pos rfl], fun n => by
    rw [numPeaksCap, if_neg (by omega)]
    rfl⟩
  apply binaryDilation_allFalse
  intro q
  show decide (q ∈ peakLocalMax (smoothedField labels gaussian_sigma)
    distance_threshold intensity_threshold border 0) = false
  rw [peakLocalMax, numPeaksCap, if_neg (by omega)]
  simp

/-! ### Monotonicity of the peak count -/

theorem binWeight_nonneg (r j : Nat) : 0 ≤ binWeight r j :=
  div_nonneg (Nat.cast_nonneg _) (pow_nonneg (by norm_num) r)

theorem conv1D_nonneg {img : NDImage ℚ} (sigma : ℚ) (axis : Nat)
    (h : ∀ p : Coord, 0 ≤ img.val p) :
    ∀ p : Coord, 0 ≤ (conv1D sigma axis img).val p := by
  intro p
  apply List.sum_nonneg
  intro x hx
  obtain ⟨j, _, rfl⟩ := List.mem_map.mp hx
  exact mul_nonneg (binWeight_nonneg _ _) (h _)

theorem foldl_conv1D_nonneg (sigma : ℚ) : ∀ (axes : List Nat) (im : NDImage ℚ),
    (∀ p : Coord, 0 ≤ im.val p) →
    ∀ p : Coord, 0 ≤ (axes.foldl (fun i a => conv1D sigma a i) im).val p
  | [], _, h => h
  | ax :: axes, im, h => by
    rw [List.foldl_cons]
    exact foldl_conv1D_nonneg sigma axes (conv1D sigma ax im) (conv1D_nonneg sigma ax h)

theorem smoothedField_nonneg (labels : NDImage Int) (sigma : ℚ) :
    ∀ p : Coord, 0 ≤ (smoothedField labels sigma).val p :=
  foldl_conv1D_nonneg sigma _ _ (distanceStage_nonneg labels)

theorem le_foldl_max : ∀ (l : List ℚ) (b : ℚ), b ≤ l.foldl max b
  | [], b => le_refl b
  | x :: l, b => le_trans (le_max_left b x) (le_foldl_max l (max b x))

theorem fieldMax_nonneg {img : NDImage ℚ} (h : ∀ p : Coord, 0 ≤ img.val p) :
    0 ≤ fieldMax img := by
  unfold fieldMax
  split
  · exact le_refl 0
  · next x xs heq =>
    have hx : 0 ≤ x := by
      have hm : x ∈ (allIndices img.shape).map img.val := by
        rw [heq]
        exact List.mem_cons_self _ _
      obtain ⟨p, _, rfl⟩ := List.mem_map.mp hm
      exact h p
    exact le_trans hx (le_foldl_max xs x)

theorem numTrue_preDilation (labels : NDImage Int) (gaussian_sigma : ℚ)
    (distance_threshold : Nat) (intensity_threshold : ℚ) (border : Nat)
    (max_seeds : Int) :
    numTrue (preDilationMask labels gaussian_sigma distance_threshold
        intensity_threshold border max_seeds) =
      (peakLocalMax (smoothedField labels gaussian_sigma) distance_threshold
        intensity_threshold border max_seeds).length :=
  numTrue_maskOfPeaks
    (fun _ hp => (mem_acceptedPeaks (mem_peakLocalMax hp)).1)
    (peakLocalMax_nodup _ _ _ _ _)

theorem peakLocalMax_length (img : NDImage ℚ) (d : Nat) (t : ℚ) (b : Nat) (m : Int) :
    (peakLocalMax img d t b m).length =
      min (numPeaksCap m (acceptedPeaks img d t b).length)
        (acceptedPeaks img d t b).length :=
  List.length_take _ _

theorem capMin_mono (m : Int) {n n' : Nat} (h : n' ≤ n) :
    min (numPeaksCap m n') n' ≤ min (numPeaksCap m n) n := by
  rw [numPeaksCap, numPeaksCap]
  by_cases hm : m = -1
  · rw [if_pos hm, if_pos hm]
    simpa [min_self] using h
  · rw [if_neg hm, if_neg hm]
    exact min_le_min (le_refl _) h

theorem isCandidate_filter_mono {img : NDImage ℚ} {t t' : ℚ} (b : Nat)
    (hmax : 0 ≤ fieldMax img) (htt : t ≤ t') (p : Coord) :
    isCandidate img t' b p =
      (isCandidate img t b p && decide (t' * fieldMax img ≤ img.val p)) := by
  rw [isCandidate, isCandidate]
  by_cases h2 : (t' * fieldMax img ≤ img.val p)
  · have h1 : (t * fieldMax img ≤ img.val p) :=
      le_trans (mul_le_mul_of_nonneg_right htt hmax) h2
    rw [decide_eq_true h2, decide_eq_true h1]
    simp
  · rw [decide_eq_false h2]
    simp

theorem insertionSort_filter_comm (img : NDImage ℚ) (P : Coord → Bool)
    (l : List Coord) :
    List.insertionSort (peakLE img) (l.filter P) =
      (List.insertionSort (peakLE img) l).filter P :=
  @List.eq_of_perm_of_sorted Coord (peakLE img) (peakLE_antisymm img) _ _
    ((List.perm_insertionSort _ _).trans
      (((List.perm_insertionSort (peakLE img) l).filter P).symm))
    (List.sorted_insertionSort _ _)
    ((List.sorted_insertionSort (peakLE img) l).filter P)

theorem sorted_filter_front (img : NDImage ℚ) (θ : ℚ) :
    ∀ l : List Coord, List.Pairwise (peakLE img) l →
      ∃ rest, l = l.filter (fun p => decide (θ ≤ img.val p)) ++ rest
  | [], _ => ⟨[], rfl⟩
  | a :: l, hp => by
    rw [List.pairwise_cons] at hp
    obtain ⟨ha, hl⟩ := hp
    by_cases hP : θ ≤ img.val a
    · obtain ⟨rest, hrest⟩ := sorted_filter_front img θ l hl
      refine ⟨rest, ?_⟩
      have hcons : (a :: l).filter (fun p => decide (θ ≤ img.val p)) =
          a :: l.filter (fun p => decide (θ ≤ img.val p)) := by
        simp [List.filter_cons, hP]
      rw [hcons, List.cons_append, ← hrest]
    · refine ⟨a :: l, ?_⟩
      have hfilter : (a :: l).filter (fun p => decide (θ ≤ img.val p)) = [] := by
        rw [List.filter_eq_nil_iff]
        intro x hx
        rcases List.mem_cons.mp hx with rfl | hxl
        · simpa using hP
        · have hle := peakLE_val_le (ha x hxl)
          simp only [decide_eq_true_eq]
          intro hc
          exact hP (le_trans hc hle)
      rw [hfilter, List.nil_append]

theorem greedySel_length_mono (d : Nat) (l₁ l₂ : List Coord) :
    (greedySel d [] l₁).length ≤ (greedySel d [] (l₁ ++ l₂)).length := by
  rw [greedySel_append]
  obtain ⟨u, _, hu⟩ := greedySel_sublist d l₂ (greedySel d [] l₁)
  rw [hu, List.length_append]
  omega

theorem acceptedPeaks_length_mono_t (img : NDImage ℚ) (d b : Nat) {t t' : ℚ}
    (htt : t ≤ t') (hmax : 0 ≤ fieldMax img) :
    (acceptedPeaks img d t' b).length ≤ (acceptedPeaks img d t b).length := by
  by_cases hf : isFlatField img = true
  · rw [acceptedPeaks_flat hf, acceptedPeaks_flat hf]
  · rw [acceptedPeaks, if_neg hf, acceptedPeaks, if_neg hf]
    have hfac : (allIndices img.shape).filter (isCandidate img t' b) =
        ((allIndices img.shape).filter (isCandidate img t b)).filter
          (fun p => decide (t' * fieldMax img ≤ img.val p)) := by
      rw [List.filter_filter]
      apply List.filter_congr
      intro x _
      rw [isCandidate_filter_mono b hmax htt x, Bool.and_comm]
    rw [hfac, insertionSort_filter_comm]
    obtain ⟨rest, hrest⟩ := sorted_filter_front img (t' * fieldMax img)
      (List.insertionSort (peakLE img)
        ((allIndices img.shape).filter (isCandidate img t b)))
      (List.sorted_insertionSort _ _)
    calc ((greedySel d [] ((List.insertionSort (peakLE img)
            ((allIndices img.shape).filter (isCandidate img t b))).filter
          (fun p => decide (t' * fieldMax img ≤ img.val p))))).length
        ≤ ((greedySel d [] (((List.insertionSort (peakLE img)
            ((allIndices img.shape).filter (isCandidate img t b))).filter
          (fun p => decide (t' * fieldMax img ≤ img.val p))) ++ rest))).length :=
          greedySel_length_mono d _ rest
      _ = ((greedySel d [] (List.insertionSort (peakLE img)
            ((allIndices img.shape).filter (isCandidate img t b))))).length := by
          rw [← hrest]

/-- C7: holding all other parameters fixed, increasing threshold_rel never
increases the number of accepted seeds before dilation. -/
theorem C7_threshold_monotone (labels : NDImage Int) (gaussian_sigma : ℚ)
    (distance_threshold : Nat) (border : Nat) (max_seeds : Int) {t t' : ℚ}
    (htt : t ≤ t') :
    numTrue (preDilationMask labels gaussian_sigma distance_threshold t'
        border max_seeds) ≤
      numTrue (preDilationMask labels gaussian_sigma distance_threshold t
        border max_seeds) := by
  rw [numTrue_preDilation, numTrue_preDilation, peakLocalMax_length,
    peakLocalMax_length]
  exact capMin_mono max_seeds
    (acceptedPeaks_length_mono_t _ distance_threshold border htt
      (fieldMax_nonneg (smoothedField_nonneg labels gaussian_sigma)))

set_option maxRecDepth 100000 in
/-- Witness for C7: on a 3×3 label array with one foreground pixel, raising
threshold_rel from 0 to 2 does not increase the seed count. -/
theorem C7_threshold_monotone_witness :
    (0 : ℚ) ≤ 2 ∧
    numTrue (preDilationMask (image2D [[0, 0, 0], [0, 1, 0], [0, 0, 0]]) 0 1 2 0 (-1)) ≤
      numTrue (preDilationMask (image2D [[0, 0, 0], [0, 1, 0], [0, 0, 0]]) 0 1 0 0 (-1)) :=
  ⟨by decide,
   C7_threshold_monotone (image2D [[0, 0, 0], [0, 1, 0], [0, 0, 0]]) 0 1 0 (-1)
     (by decide)⟩

/-- C6 (amended): the greedy separation pass never accepts more seeds than
the min_distance = 0 run (which accepts every surviving candidate), so the
accepted-seed count at any min_distance is bounded by the count at 0; full
monotone non-increase in min_distance does not hold (see the
counterexample). -/
theorem C6_min_distance_zero_bound (labels : NDImage Int) (gaussian_sigma : ℚ)
    (intensity_threshold : ℚ) (border : Nat) (max_seeds : Int)
    (distance_threshold : Nat) :
    numTrue (preDilationMask labels gaussian_sigma distance_threshold
        intensity_threshold border max_seeds) ≤
      numTrue (preDilationMask labels gaussian_sigma 0
        intensity_threshold border max_seeds) := by
  rw [numTrue_preDilation, numTrue_preDilation, peakLocalMax_length,
    peakLocalMax_length]
  apply capMin_mono
  by_cases hf : isFlatField (smoothedField labels gaussian_sigma) = true
  · rw [acceptedPeaks_flat hf, acceptedPeaks_flat hf]
  · rw [acceptedPeaks, if_neg hf, acceptedPeaks, if_neg hf, greedySel_zero]
    obtain ⟨u, hs, hu⟩ := greedySel_sublist distance_threshold
      (List.insertionSort (peakLE (smoothedField labels gaussian_sigma))
        ((allIndices (smoothedField labels gaussian_sigma).shape).filter
          (isCandidate (smoothedField labels gaussian_sigma)
            intensity_threshold border))) []
    rw [hu]
    simpa using hs.length_le

set_option maxRecDepth 1000000 in
set_option maxHeartbeats 1600000 in
/-- Counterexample to C6 as stated: on the four-dot label array, raising
min_distance from 3 to 4 raises the accepted-seed count from 2 to 3 — at
min_distance 3 the second-ranked seed suppresses the two later ones, while
at min_distance 4 the second-ranked seed is itself suppressed and both
later ones survive. -/
theorem C6_counterexample :
    (3 : Nat) < 4 ∧
    numTrue (preDilationMask fourDotLabels 0 3 0 0 (-1)) = 2 ∧
    numTrue (preDilationMask fourDotLabels 0 4 0 0 (-1)) = 3 := by
  refine ⟨by norm_num, ?_, ?_⟩
  · rw [numTrue_preDilation,
      show peakLocalMax (smoothedField fourDotLabels 0) 3 0 0 (-1) =
        [[0, 2], [3, 2]] from by decide]
    rfl
  · rw [numTrue_preDilation,
      show peakLocalMax (smoothedField fourDotLabels 0) 4 0 0 (-1) =
        [[0, 2], [4, 0], [4, 4]] from by decide]
    rfl

/-- Witness for C10: max_seeds = 0 on a 1×1 all-foreground array raises no
error and yields the all-False mask. -/
theorem C10_max_seeds_zero_witness :
    allFalseMask (generate_seeds (image2D [[1]]) 0 1 0 0 0
      (NDImage.mk [3, 3] (fun _ => true))) :=
  (C10_max_seeds_zero (image2D [[1]]) 0 1 0 0 (NDImage.mk [3, 3] (fun _ => true))).1

end SeedObjects
